import Mathlib

/-!
Verification of the ai-board post listing / comment threading core.

The definitions below are shallow embeddings of the Python source:
  - `build_posts_filter_sql` (app_core.py) : the faceted search filter builder,
  - `add_comment` (views_posts.py) : materialized-path comment creation,
  - `toggle_favorite` (views_posts.py),
  - the three notification counters of `get_notify_counts_for_user` (app_core.py),
  - the listing / export query assembly (views_posts.py, views_api.py).
-/

/-- Boolean lexicographic strict comparison of lists over a linear order.
This is the byte-wise comparison used by the database when sorting the
`path` column of comments (`ORDER BY COALESCE(path,...)`). -/
def lexB {α : Type} [LinearOrder α] : List α → List α → Bool
  | [], [] => false
  | [], _ :: _ => true
  | _ :: _, [] => false
  | a :: as, b :: bs => if a < b then true else if b < a then false else lexB as bs

theorem lexB_irrefl {α : Type} [LinearOrder α] (l : List α) : lexB l l = false := by
  induction l with
  | nil => rfl
  | cons a as ih => simp [lexB, ih]

theorem lexB_asymm {α : Type} [LinearOrder α] :
    ∀ (l₁ l₂ : List α), lexB l₁ l₂ = true → lexB l₂ l₁ = false
  | [], [], h => by simp [lexB] at h
  | _ :: _, [], h => by simp [lexB] at h
  | [], _ :: _, _ => rfl
  | a :: as, b :: bs, h => by
    by_cases hab : a < b
    · simp [lexB, not_lt_of_lt hab, hab]
    · by_cases hba : b < a
      · simp [lexB, hab, hba] at h
      · have : lexB as bs = true := by simpa [lexB, hab, hba] using h
        simp [lexB, hab, hba, lexB_asymm as bs this]

theorem lexB_total_of_ne {α : Type} [LinearOrder α] :
    ∀ (l₁ l₂ : List α), l₁ ≠ l₂ → lexB l₁ l₂ = true ∨ lexB l₂ l₁ = true
  | [], [], h => absurd rfl h
  | [], _ :: _, _ => Or.inl rfl
  | _ :: _, [], _ => Or.inr rfl
  | a :: as, b :: bs, h => by
    rcases lt_trichotomy a b with hab | hab | hab
    · exact Or.inl (by simp [lexB, hab])
    · subst hab
      have htl : as ≠ bs := fun he => h (by rw [he])
      rcases lexB_total_of_ne as bs htl with h1 | h1
      · exact Or.inl (by simp [lexB, h1])
      · exact Or.inr (by simp [lexB, h1])
    · exact Or.inr (by simp [lexB, hab])

theorem lexB_append_same {α : Type} [LinearOrder α] :
    ∀ (u s t : List α), lexB (u ++ s) (u ++ t) = lexB s t := by
  intro u
  induction u with
  | nil => intro s t; rfl
  | cons a u ih => intro s t; simp [lexB, ih]

theorem lexB_append_of_ne {α : Type} [LinearOrder α] :
    ∀ (u v s t : List α), u.length = v.length → u ≠ v →
      lexB (u ++ s) (v ++ t) = lexB u v
  | [], [], _, _, _, hne => absurd rfl hne
  | [], _ :: _, _, _, hl, _ => by simp at hl
  | _ :: _, [], _, _, hl, _ => by simp at hl
  | a :: u, b :: v, s, t, hl, hne => by
    by_cases hab : a < b
    · simp [lexB, hab]
    · by_cases hba : b < a
      · simp [lexB, hab, hba]
      · have hab' : a = b := le_antisymm (not_lt.mp hba) (not_lt.mp hab)
        subst hab'
        have hl' : u.length = v.length := by simpa using hl
        have hne' : u ≠ v := fun he => hne (by rw [he])
        simp [lexB, hab, lexB_append_of_ne u v s t hl' hne']

/-- A strict lexicographic extension: a proper extension sorts after its prefix. -/
theorem lexB_self_append {α : Type} [LinearOrder α] (u : List α) (x : α) (t : List α) :
    lexB u (u ++ x :: t) = true := by
  have h := lexB_append_same u [] (x :: t)
  simpa using h

/-- A strict prefix sorts before the longer list. -/
theorem lexB_of_prefix_ne {α : Type} [LinearOrder α] (u v : List α)
    (hp : u <+: v) (hne : u ≠ v) : lexB u v = true := by
  obtain ⟨t, rfl⟩ := hp
  cases t with
  | nil => simp at hne
  | cons x t => exact lexB_self_append u x t

/-- Lists differing at a position inside a common prefix: head position decides. -/
theorem lexB_append_lt {α : Type} [LinearOrder α] (b : List α) (x y : α)
    (xs ys : List α) (hxy : x < y) :
    lexB (b ++ x :: xs) (b ++ y :: ys) = true := by
  have h1 : lexB (b ++ [x]) (b ++ [y]) = true := by
    rw [lexB_append_same]; simp [lexB, hxy]
  have h2 : (b ++ [x]).length = (b ++ [y]).length := by simp
  have h3 : b ++ [x] ≠ b ++ [y] := by
    intro he
    exact absurd (by simpa using he) (ne_of_lt hxy)
  calc lexB (b ++ x :: xs) (b ++ y :: ys)
      = lexB ((b ++ [x]) ++ xs) ((b ++ [y]) ++ ys) := by simp
    _ = lexB (b ++ [x]) (b ++ [y]) := lexB_append_of_ne _ _ _ _ h2 h3
    _ = true := h1

/-- The between-property of lexicographic order w.r.t. strict prefixes:
if `p` is a proper prefix of `d` and `e` lies strictly between them, then
`p` is a prefix of `e`. -/
theorem lexB_between_prefix {α : Type} [LinearOrder α] :
    ∀ (p d e : List α), p <+: d → p ≠ d →
      lexB p e = true → lexB e d = true → p <+: e
  | [], _, _, _, _, _, _ => List.nil_prefix
  | _ :: _, [], _, hp, _, _, _ => by simp at hp
  | a :: p, d₀ :: d, e₀ :: e, hp, hne, hpe, hed => by
    have had : a = d₀ := by
      have := List.cons_prefix_cons.mp hp
      exact this.1
    subst had
    have hpd : p <+: d := (List.cons_prefix_cons.mp hp).2
    by_cases hae : a < e₀
    · -- then e > p at head; but e < d with d's head = a < e₀ is impossible
      have : lexB (e₀ :: e) (a :: d) = true := hed
      by_cases h1 : e₀ < a
      · exact absurd hae (not_lt_of_lt h1)
      · simp [lexB, h1, hae] at this
    · by_cases hea : e₀ < a
      · -- e < p at head, contradicting p < e
        simp [lexB, hae, hea] at hpe
      · have hae' : a = e₀ := le_antisymm (not_lt.mp hea) (not_lt.mp hae)
        subst hae'
        have hpe' : lexB p e = true := by simpa [lexB, lt_irrefl] using hpe
        have hed' : lexB e d = true := by simpa [lexB, lt_irrefl] using hed
        have hpd' : p ≠ d := fun he => hne (by rw [he])
        exact List.cons_prefix_cons.mpr ⟨rfl, lexB_between_prefix p d e hpd hpd' hpe' hed'⟩
  | a :: p, d₀ :: d, [], hp, hne, hpe, hed => by cases hpe

/-- Fixed-width decimal rendering, most significant digit first: `padW w n`
is the `w`-character decimal representation of `n % 10^w`, zero-padded. -/
def padW : Nat → Nat → List Char
  | 0, _ => []
  | w + 1, n => Nat.digitChar (n / 10 ^ w) :: padW w (n % 10 ^ w)

def digitCountAux : Nat → Nat → Nat
  | 0, _ => 1
  | fuel + 1, n => if n < 10 then 1 else digitCountAux fuel (n / 10) + 1

/-- Number of decimal digits of `n` (1 for `n = 0`). -/
def digitCount (n : Nat) : Nat := digitCountAux n n

/-- Model of Python's `f"{n:06d}"` (views_posts.py `add_comment`): the decimal
representation of `n`, zero-padded on the left to a minimum width of 6.
For `n < 10^6` this is the 6 decimal digits of `n`; for larger `n` the
representation is wider than 6 characters (`%06d` never truncates). -/
def pad (n : Nat) : List Char :=
  if n < 1000000 then padW 6 n else padW (digitCount n) n

theorem padW_length : ∀ (w n : Nat), (padW w n).length = w
  | 0, _ => rfl
  | w + 1, n => by simp [padW, padW_length w]

theorem digitCount_pos (n : Nat) : 1 ≤ digitCount n := by
  unfold digitCount
  cases h : n with
  | zero => simp [digitCountAux]
  | succ m =>
    simp only [digitCountAux]
    split
    · exact le_refl 1
    · omega

theorem pad_length_pos (n : Nat) : 0 < (pad n).length := by
  unfold pad
  split
  · rw [padW_length]; omega
  · rw [padW_length]; exact digitCount_pos n

theorem pad_ne_nil (n : Nat) : pad n ≠ [] :=
  List.ne_nil_of_length_pos (pad_length_pos n)

theorem pad_eq_padW {n : Nat} (h : n < 1000000) : pad n = padW 6 n := by
  simp [pad, h]

theorem digitChar_strict_mono :
    ∀ a < 10, ∀ b < 10, a < b → Nat.digitChar a < Nat.digitChar b := by decide

theorem padW_mono : ∀ (w n m : Nat), n < m → m < 10 ^ w →
    lexB (padW w n) (padW w m) = true := by
  intro w
  induction w with
  | zero => intro n m hnm hm; simp at hm; omega
  | succ w ih =>
    intro n m hnm hm
    have hb : m / 10 ^ w < 10 := by
      rw [Nat.div_lt_iff_lt_mul (Nat.pos_pow_of_pos w (by norm_num))]
      calc m < 10 ^ (w + 1) := hm
        _ = 10 * 10 ^ w := by ring
    have hab : n / 10 ^ w ≤ m / 10 ^ w := Nat.div_le_div_right (le_of_lt hnm)
    rcases Nat.lt_or_ge (n / 10 ^ w) (m / 10 ^ w) with hlt | hge
    · have ha : n / 10 ^ w < 10 := lt_of_lt_of_le hlt (le_of_lt hb)
      have hc := digitChar_strict_mono _ ha _ hb hlt
      simp [padW, lexB, hc]
    · have heq : n / 10 ^ w = m / 10 ^ w := le_antisymm hab hge
      have hmodm : m % 10 ^ w < 10 ^ w :=
        Nat.mod_lt _ (Nat.pos_pow_of_pos w (by norm_num))
      have hmodlt : n % 10 ^ w < m % 10 ^ w := by
        have h1 := Nat.div_add_mod n (10 ^ w)
        have h2 := Nat.div_add_mod m (10 ^ w)
        rw [heq] at h1
        omega
      have := ih (n % 10 ^ w) (m % 10 ^ w) hmodlt hmodm
      simp [padW, lexB, heq, this]

theorem padW_ne {w n m : Nat} (hnm : n < m) (hm : m < 10 ^ w) :
    padW w n ≠ padW w m := by
  intro he
  have h1 := padW_mono w n m hnm hm
  rw [he] at h1
  rw [lexB_irrefl] at h1
  exact Bool.false_ne_true h1

/-- Rendering of a chain of comment ids as a materialized path string:
fixed-width segments joined by a slash separator. -/
def renderChain : List Nat → List Char
  | [] => []
  | [x] => pad x
  | x :: y :: t => pad x ++ '/' :: renderChain (y :: t)

theorem renderChain_ne_nil : ∀ (ch : List Nat), ch ≠ [] → renderChain ch ≠ []
  | [], h => absurd rfl h
  | [x], _ => by simpa [renderChain] using pad_ne_nil x
  | x :: y :: t, _ => by simp [renderChain]

theorem renderChain_cons (a : Nat) (t : List Nat) :
    renderChain (a :: t) = pad a ++ (if t = [] then [] else '/' :: renderChain t) := by
  cases t with
  | nil => simp [renderChain]
  | cons y t => simp [renderChain]

theorem renderChain_concat : ∀ (ch : List Nat) (x : Nat), ch ≠ [] →
    renderChain (ch ++ [x]) = renderChain ch ++ '/' :: pad x
  | [], _, h => absurd rfl h
  | [a], x, _ => by simp [renderChain]
  | a :: b :: t, x, _ => by
    have ih := renderChain_concat (b :: t) x (by simp)
    simp only [List.cons_append] at ih ⊢
    show pad a ++ '/' :: renderChain (b :: (t ++ [x]))
        = (pad a ++ '/' :: renderChain (b :: t)) ++ '/' :: pad x
    rw [ih]
    simp

/-- Under the 6-digit width bound, path strings compare exactly like the
underlying id chains. -/
theorem lexB_renderChain : ∀ (l₁ l₂ : List Nat),
    (∀ x ∈ l₁, x < 1000000) → (∀ x ∈ l₂, x < 1000000) →
    lexB (renderChain l₁) (renderChain l₂) = lexB l₁ l₂ := by
  intro l₁
  induction l₁ with
  | nil =>
    intro l₂ _ _
    cases l₂ with
    | nil => rfl
    | cons b bs =>
      have hne := renderChain_ne_nil (b :: bs) (by simp)
      cases hr : renderChain (b :: bs) with
      | nil => exact absurd hr hne
      | cons c cs => simp [renderChain, lexB]
  | cons a as ih =>
    intro l₂ h₁ h₂
    cases l₂ with
    | nil =>
      have : ∀ (l : List Char), lexB l [] = false := by intro l; cases l <;> rfl
      rw [renderChain]
      cases as <;> simp [lexB, this]
    | cons b bs =>
      have hpa : pad a = padW 6 a := pad_eq_padW (h₁ a (by simp))
      have hpb : pad b = padW 6 b := pad_eq_padW (h₂ b (by simp))
      have hlen : (padW 6 a).length = (padW 6 b).length := by rw [padW_length, padW_length]
      rcases lt_trichotomy a b with hab | hab | hab
      · have hne : padW 6 a ≠ padW 6 b := padW_ne hab (h₂ b (by simp))
        have hlex : lexB (padW 6 a) (padW 6 b) = true := padW_mono 6 a b hab (h₂ b (by simp))
        rw [renderChain_cons, renderChain_cons, hpa, hpb,
          lexB_append_of_ne _ _ _ _ hlen hne, hlex]
        simp [lexB, hab]
      · subst hab
        rw [renderChain_cons, renderChain_cons, hpa, lexB_append_same]
        cases as with
        | nil =>
          cases bs with
          | nil => simp [lexB]
          | cons c cs =>
            have hne := renderChain_ne_nil (c :: cs) (by simp)
            cases hr : renderChain (c :: cs) with
            | nil => exact absurd hr hne
            | cons d ds => simp [lexB]
        | cons c cs =>
          cases bs with
          | nil =>
            have : ∀ (l : List Char), lexB l [] = false := by intro l; cases l <;> rfl
            simp [lexB, this]
          | cons d ds =>
            have ihx := ih (d :: ds) (fun x hx => h₁ x (by simp [hx]))
              (fun x hx => h₂ x (by simp [hx]))
            simp [lexB, ihx]
      · have hne : padW 6 b ≠ padW 6 a := padW_ne hab (h₁ a (by simp))
        have hlex : lexB (padW 6 b) (padW 6 a) = true := padW_mono 6 b a hab (h₁ a (by simp))
        have hlex' : lexB (padW 6 a) (padW 6 b) = false := lexB_asymm _ _ hlex
        rw [renderChain_cons, renderChain_cons, hpa, hpb,
          lexB_append_of_ne _ _ _ _ hlen (Ne.symm hne), hlex']
        simp [lexB, hab, not_lt_of_lt hab]

/-- A row of the `comments` table (the columns used by the threading logic). -/
structure Comment where
  id : Nat
  post_id : Nat
  parent_id : Option Nat
  depth : Nat
  path : List Char
deriving DecidableEq, Repr

/-- The parent lookup of `add_comment` (views_posts.py):
`SELECT id, path, depth FROM comments WHERE id=%s AND post_id=%s`. -/
def find_parent (st : List Comment) (pid post : Nat) : Option Comment :=
  st.find? (fun c => c.id == pid && c.post_id == post)

/-- The parent resolution performed by `add_comment`: the lookup only happens
for a truthy (non-`None`, non-zero) `parent_id`. -/
def lookup_parent (st : List Comment) (post : Nat) : Option Nat → Option Comment
  | some pid => if pid ≠ 0 then find_parent st pid post else none
  | none => none

/-- Shallow embedding of `add_comment` (views_posts.py): the state is the list
of comment rows in insertion order; `cid` is the id handed out by the database
(`RETURNING id`).  If a truthy `parent_id` is supplied and resolves to a
comment of the same post, the new row gets `depth = parent.depth + 1` and
`path = (parent.path or pad(parent.id)) ++ "/" ++ pad(cid)`; otherwise it is
written with depth 0 and root path `pad(cid)`.  In both branches the supplied
`parent_id` value itself is inserted unchanged.  This function computes the
row the application writes; whether the database accepts it is governed by
the `parent_id` foreign key, modelled separately by `fk_okB` and
`add_comment_db` (a resolved parent always satisfies the key, so reachable
states built from resolved or `none` parents are unaffected). -/
def add_comment (st : List Comment) (post : Nat) (parent_id : Option Nat)
    (cid : Nat) : List Comment :=
  match lookup_parent st post parent_id with
  | some p =>
    let parent_path := if p.path = [] then pad p.id else p.path
    st ++ [{ id := cid, post_id := post, parent_id := parent_id,
             depth := p.depth + 1, path := parent_path ++ '/' :: pad cid }]
  | none =>
    st ++ [{ id := cid, post_id := post, parent_id := parent_id,
             depth := 0, path := pad cid }]

/-- The reachable comment states: a sequence of `add_comment` insertions where
each inserted id is fresh (database serial ids are strictly increasing). -/
inductive Built : List Comment → Prop where
  | nil : Built []
  | step (st : List Comment) (post : Nat) (parent_id : Option Nat) (cid : Nat) :
      Built st → (∀ c ∈ st, c.id < cid) →
      Built (add_comment st post parent_id cid)

/-- The effective parent of a stored comment: the comment its `parent_id`
resolved to when it was inserted.  On a `Built` state this can be recovered
from the final state because ids are unique and increase over time: an
insertion-time hit must have a smaller id, while a row matching a dangling
`parent_id` can only have been added later, with a larger id. -/
def effParent (st : List Comment) (d : Comment) : Option Comment :=
  match d.parent_id with
  | none => none
  | some pid =>
    if pid = 0 then none
    else
      match find_parent st pid d.post_id with
      | some p => if p.id < d.id then some p else none
      | none => none

theorem find_parent_mem {st : List Comment} {pid post : Nat} {p : Comment}
    (h : find_parent st pid post = some p) : p ∈ st :=
  List.mem_of_find?_eq_some h

theorem find_parent_spec {st : List Comment} {pid post : Nat} {p : Comment}
    (h : find_parent st pid post = some p) : p.id = pid ∧ p.post_id = post := by
  have := List.find?_some h
  simp at this
  exact this

theorem effParent_mem {st : List Comment} {d p : Comment}
    (h : effParent st d = some p) : p ∈ st := by
  unfold effParent at h
  cases hd : d.parent_id with
  | none => rw [hd] at h; cases h
  | some pid =>
    rw [hd] at h
    by_cases h0 : pid = 0
    · simp [h0] at h
    · simp only [h0, if_false] at h
      cases hf : find_parent st pid d.post_id with
      | none => rw [hf] at h; cases h
      | some q =>
        rw [hf] at h
        by_cases hq : q.id < d.id
        · simp [hq] at h; exact h ▸ find_parent_mem hf
        · simp [hq] at h

theorem effParent_lt {st : List Comment} {d p : Comment}
    (h : effParent st d = some p) : p.id < d.id := by
  unfold effParent at h
  cases hd : d.parent_id with
  | none => rw [hd] at h; cases h
  | some pid =>
    rw [hd] at h
    by_cases h0 : pid = 0
    · simp [h0] at h
    · simp only [h0, if_false] at h
      cases hf : find_parent st pid d.post_id with
      | none => rw [hf] at h; cases h
      | some q =>
        rw [hf] at h
        by_cases hq : q.id < d.id
        · simp [hq] at h; exact h ▸ hq
        · simp [hq] at h

theorem effParent_post {st : List Comment} {d p : Comment}
    (h : effParent st d = some p) : p.post_id = d.post_id := by
  unfold effParent at h
  cases hd : d.parent_id with
  | none => rw [hd] at h; cases h
  | some pid =>
    rw [hd] at h
    by_cases h0 : pid = 0
    · simp [h0] at h
    · simp only [h0, if_false] at h
      cases hf : find_parent st pid d.post_id with
      | none => rw [hf] at h; cases h
      | some q =>
        rw [hf] at h
        by_cases hq : q.id < d.id
        · simp [hq] at h; exact h ▸ (find_parent_spec hf).2
        · simp [hq] at h

/-- The id chain of a comment: the ids along the effective-parent chain from
the root of its thread down to the comment itself, computed with fuel. -/
def chainAux (st : List Comment) : Nat → Comment → List Nat
  | 0, d => [d.id]
  | fuel + 1, d =>
    match effParent st d with
    | some p => chainAux st fuel p ++ [d.id]
    | none => [d.id]

def chain (st : List Comment) (d : Comment) : List Nat := chainAux st d.id d

theorem chainAux_congr (st : List Comment) :
    ∀ (f₁ : Nat), ∀ (f₂ : Nat) (d : Comment), d.id ≤ f₁ → d.id ≤ f₂ →
      chainAux st f₁ d = chainAux st f₂ d := by
  intro f₁
  induction f₁ using Nat.strong_induction_on with
  | _ f₁ ih =>
    intro f₂ d h₁ h₂
    cases hp : effParent st d with
    | none =>
      cases f₁ <;> cases f₂ <;> simp [chainAux, hp]
    | some p =>
      have hlt := effParent_lt hp
      cases f₁ with
      | zero => omega
      | succ g₁ =>
        cases f₂ with
        | zero => omega
        | succ g₂ =>
          simp only [chainAux, hp]
          rw [ih g₁ (by omega) g₂ p (by omega) (by omega)]

theorem chain_effParent_some {st : List Comment} {d p : Comment}
    (h : effParent st d = some p) : chain st d = chain st p ++ [d.id] := by
  have hlt := effParent_lt h
  unfold chain
  cases hd : d.id with
  | zero => omega
  | succ k =>
    simp only [chainAux, h]
    rw [chainAux_congr st k p.id p (by omega) (le_refl _), hd]

theorem chain_effParent_none {st : List Comment} {d : Comment}
    (h : effParent st d = none) : chain st d = [d.id] := by
  unfold chain
  cases hd : d.id with
  | zero => simp [chainAux, hd]
  | succ k => simp [chainAux, h, hd]

theorem chain_concat_self (st : List Comment) (d : Comment) :
    ∃ ch₀, chain st d = ch₀ ++ [d.id] := by
  cases hp : effParent st d with
  | none => exact ⟨[], by rw [chain_effParent_none hp]; rfl⟩
  | some p => exact ⟨chain st p, chain_effParent_some hp⟩

theorem chain_ne_nil (st : List Comment) (d : Comment) : chain st d ≠ [] := by
  obtain ⟨ch₀, hc⟩ := chain_concat_self st d
  rw [hc]
  simp

theorem chain_getLast (st : List Comment) (d : Comment) (h : chain st d ≠ []) :
    (chain st d).getLast h = d.id := by
  obtain ⟨ch₀, hc⟩ := chain_concat_self st d
  simp [hc, List.getLast_append]

theorem lookup_parent_some {st : List Comment} {post : Nat} {parent_id : Option Nat}
    {p : Comment} (h : lookup_parent st post parent_id = some p) :
    ∃ pid, parent_id = some pid ∧ pid ≠ 0 ∧ find_parent st pid post = some p := by
  cases parent_id with
  | none => cases h
  | some pid =>
    by_cases h0 : pid ≠ 0
    · exact ⟨pid, rfl, h0, by simpa [lookup_parent, h0] using h⟩
    · simp [lookup_parent, h0] at h

theorem add_comment_some {st : List Comment} {post : Nat} {parent_id : Option Nat}
    {p : Comment} (cid : Nat) (h : lookup_parent st post parent_id = some p) :
    add_comment st post parent_id cid
      = st ++ [{ id := cid, post_id := post, parent_id := parent_id,
                 depth := p.depth + 1,
                 path := (if p.path = [] then pad p.id else p.path) ++ '/' :: pad cid }] := by
  unfold add_comment
  rw [h]

theorem add_comment_none {st : List Comment} {post : Nat} {parent_id : Option Nat}
    (cid : Nat) (h : lookup_parent st post parent_id = none) :
    add_comment st post parent_id cid
      = st ++ [{ id := cid, post_id := post, parent_id := parent_id,
                 depth := 0, path := pad cid }] := by
  unfold add_comment
  rw [h]

theorem add_comment_shape (st : List Comment) (post : Nat) (parent_id : Option Nat)
    (cid : Nat) :
    ∃ nc, add_comment st post parent_id cid = st ++ [nc] ∧ nc.id = cid ∧
      nc.post_id = post ∧ nc.parent_id = parent_id := by
  cases h : lookup_parent st post parent_id with
  | some p => exact ⟨_, add_comment_some cid h, rfl, rfl, rfl⟩
  | none => exact ⟨_, add_comment_none cid h, rfl, rfl, rfl⟩

theorem find_parent_append (st : List Comment) (nc : Comment) (pid post : Nat) :
    find_parent (st ++ [nc]) pid post
      = (find_parent st pid post).or (find_parent [nc] pid post) := by
  unfold find_parent
  exact List.find?_append

/-- Appending a row with a larger id does not change the effective parent of
an existing row. -/
theorem effParent_append {st : List Comment} {nc d : Comment} (hid : d.id < nc.id) :
    effParent (st ++ [nc]) d = effParent st d := by
  unfold effParent
  cases d.parent_id with
  | none => rfl
  | some pid =>
    by_cases h0 : pid = 0
    · simp [h0]
    · simp only [h0, if_false]
      rw [find_parent_append]
      cases hf : find_parent st pid d.post_id with
      | some p => rfl
      | none =>
        simp only [Option.none_or]
        cases hf2 : find_parent [nc] pid d.post_id with
        | none => rfl
        | some q =>
          have hq : q = nc := by
            have := find_parent_mem hf2
            simpa using this
          subst hq
          simp [Nat.lt_asymm hid]

theorem chain_append_aux {st : List Comment} {nc : Comment} :
    ∀ (n : Nat) (d : Comment), d.id ≤ n → d.id < nc.id →
      chain (st ++ [nc]) d = chain st d := by
  intro n
  induction n with
  | zero =>
    intro d h0 hlt
    have hep : effParent (st ++ [nc]) d = effParent st d := effParent_append hlt
    cases hp : effParent st d with
    | none =>
      rw [hp] at hep
      rw [chain_effParent_none hep, chain_effParent_none hp]
    | some p =>
      have := effParent_lt hp
      omega
  | succ n ih =>
    intro d hn hlt
    have hep : effParent (st ++ [nc]) d = effParent st d := effParent_append hlt
    cases hp : effParent st d with
    | none =>
      rw [hp] at hep
      rw [chain_effParent_none hep, chain_effParent_none hp]
    | some p =>
      rw [hp] at hep
      have hplt := effParent_lt hp
      rw [chain_effParent_some hep, chain_effParent_some hp,
        ih p (by omega) (by omega)]

theorem chain_append {st : List Comment} {nc : Comment} (d : Comment)
    (hid : d.id < nc.id) : chain (st ++ [nc]) d = chain st d :=
  chain_append_aux d.id d (le_refl _) hid

theorem built_ids_increasing {st : List Comment} (h : Built st) :
    st.Pairwise (fun a b => a.id < b.id) := by
  induction h with
  | nil => exact List.Pairwise.nil
  | step st post parent_id cid _ hfresh ih =>
    obtain ⟨nc, heq, hid, _, _⟩ := add_comment_shape st post parent_id cid
    rw [heq]
    rw [List.pairwise_append]
    refine ⟨ih, List.pairwise_singleton _ _, ?_⟩
    intro a ha b hb
    have : b = nc := by simpa using hb
    subst this
    rw [hid]
    exact hfresh a ha

theorem built_id_inj {st : List Comment} (h : Built st) :
    ∀ a ∈ st, ∀ b ∈ st, a.id = b.id → a = b := by
  have hp := built_ids_increasing h
  clear h
  induction st with
  | nil => intro a ha; simp at ha
  | cons c tl ih =>
    rw [List.pairwise_cons] at hp
    intro a ha b hb heq
    rcases List.mem_cons.mp ha with rfl | ha' <;>
      rcases List.mem_cons.mp hb with rfl | hb'
    · rfl
    · exact absurd heq (Nat.ne_of_lt (hp.1 b hb'))
    · exact absurd heq.symm (Nat.ne_of_lt (hp.1 a ha'))
    · exact ih hp.2 a ha' b hb' heq

theorem built_nodup {st : List Comment} (h : Built st) : st.Nodup :=
  (built_ids_increasing h).imp (fun hlt => fun he => by subst he; exact Nat.lt_irrefl _ hlt)

/-- Elements of an id chain are bounded by any bound on the ids in the state. -/
theorem chain_elems_lt {st : List Comment} {B : Nat} (hB : ∀ c ∈ st, c.id < B) :
    ∀ (n : Nat) (d : Comment), d.id ≤ n → d ∈ st → ∀ x ∈ chain st d, x < B := by
  intro n
  induction n with
  | zero =>
    intro d h0 hd x hx
    cases hp : effParent st d with
    | none =>
      rw [chain_effParent_none hp] at hx
      simp at hx
      subst hx
      exact hB d hd
    | some p =>
      have := effParent_lt hp
      omega
  | succ n ih =>
    intro d hn hd x hx
    cases hp : effParent st d with
    | none =>
      rw [chain_effParent_none hp] at hx
      simp at hx
      subst hx
      exact hB d hd
    | some p =>
      rw [chain_effParent_some hp] at hx
      rcases List.mem_append.mp hx with hx' | hx'
      · have hplt := effParent_lt hp
        exact ih p (by omega) (effParent_mem hp) x hx'
      · simp at hx'
        subst hx'
        exact hB d hd

/-- The central invariant of reachable comment states: every row's stored
`path` is the rendering of its id chain, and its stored `depth` is the chain
length minus one. -/
theorem built_rowsOk {st : List Comment} (h : Built st) :
    ∀ d ∈ st, d.path = renderChain (chain st d) ∧ d.depth + 1 = (chain st d).length := by
  induction h with
  | nil => intro d hd; simp at hd
  | step st post parent_id cid hb hfresh ih =>
    cases hl : lookup_parent st post parent_id with
    | some p =>
      obtain ⟨pid, hpid, h0, hfp⟩ := lookup_parent_some hl
      have hpmem : p ∈ st := find_parent_mem hfp
      have hplt : p.id < cid := hfresh p hpmem
      obtain ⟨hppath, hpdepth⟩ := ih p hpmem
      set nc : Comment :=
        { id := cid, post_id := post, parent_id := parent_id,
          depth := p.depth + 1,
          path := (if p.path = [] then pad p.id else p.path) ++ '/' :: pad cid } with hnc
      have heq : add_comment st post parent_id cid = st ++ [nc] := add_comment_some cid hl
      have hchne : chain st p ≠ [] := chain_ne_nil st p
      have hpath_ne : p.path ≠ [] := by
        rw [hppath]
        exact renderChain_ne_nil _ hchne
      -- the new row's effective parent in the extended state is p
      have hep : effParent (st ++ [nc]) nc = some p := by
        unfold effParent
        have hncp : nc.parent_id = some pid := by rw [hnc]; exact hpid
        rw [hncp]
        simp only [h0, if_false]
        rw [find_parent_append, hfp]
        show (if p.id < cid then some p else none) = some p
        rw [if_pos hplt]
      have hcn : chain (st ++ [nc]) nc = chain st p ++ [cid] := by
        rw [chain_effParent_some hep, chain_append p hplt]
      rw [heq]
      intro d hd
      rcases List.mem_append.mp hd with hd' | hd'
      · obtain ⟨h1, h2⟩ := ih d hd'
        have hlt : d.id < nc.id := hfresh d hd'
        rw [chain_append d hlt]
        exact ⟨h1, h2⟩
      · have : d = nc := by simpa using hd'
        subst this
        constructor
        · show (if p.path = [] then pad p.id else p.path) ++ '/' :: pad cid = _
          rw [if_neg hpath_ne, hcn, renderChain_concat _ _ hchne, hppath]
        · show p.depth + 1 + 1 = _
          rw [hcn]
          simp [← hpdepth]
    | none =>
      set nc : Comment :=
        { id := cid, post_id := post, parent_id := parent_id,
          depth := 0, path := pad cid } with hnc
      have heq : add_comment st post parent_id cid = st ++ [nc] := add_comment_none cid hl
      -- the new row has no effective parent in the extended state
      have hep : effParent (st ++ [nc]) nc = none := by
        unfold effParent
        have hncp : nc.parent_id = parent_id := by rw [hnc]
        rw [hncp]
        cases hpid : parent_id with
        | none => rfl
        | some pid =>
          by_cases h0 : pid = 0
          · simp [h0]
          · have hfp : find_parent st pid post = none := by
              have := hl
              rw [hpid] at this
              simpa [lookup_parent, h0] using this
            simp only [h0, if_false]
            rw [find_parent_append, hfp]
            simp only [Option.none_or]
            cases hf2 : find_parent [nc] pid post with
            | none => rfl
            | some q =>
              have hq : q = nc := by
                have := find_parent_mem hf2
                simpa using this
              subst hq
              simp
      have hcn : chain (st ++ [nc]) nc = [cid] := chain_effParent_none hep
      rw [heq]
      intro d hd
      rcases List.mem_append.mp hd with hd' | hd'
      · obtain ⟨h1, h2⟩ := ih d hd'
        have hlt : d.id < nc.id := hfresh d hd'
        rw [chain_append d hlt]
        exact ⟨h1, h2⟩
      · have : d = nc := by simpa using hd'
        subst this
        refine ⟨?_, by rw [hcn]; rfl⟩
        show pad cid = _
        rw [hcn]
        rfl

/-- The ancestor relation of the comment tree: transitive closure of the
effective-parent (reply-to) relation recorded at insertion time. -/
inductive IsAncestor (st : List Comment) : Comment → Comment → Prop where
  | parent {p d : Comment} : d ∈ st → effParent st d = some p → IsAncestor st p d
  | trans {p q d : Comment} : IsAncestor st p q → IsAncestor st q d → IsAncestor st p d

theorem anc_mem_right {st : List Comment} {p d : Comment}
    (h : IsAncestor st p d) : d ∈ st := by
  induction h with
  | parent hd _ => exact hd
  | trans _ _ _ ih2 => exact ih2

theorem anc_mem_left {st : List Comment} {p d : Comment}
    (h : IsAncestor st p d) : p ∈ st := by
  induction h with
  | parent _ hp => exact effParent_mem hp
  | trans _ _ ih1 _ => exact ih1

theorem anc_post {st : List Comment} {p d : Comment}
    (h : IsAncestor st p d) : p.post_id = d.post_id := by
  induction h with
  | parent _ hp => exact effParent_post hp
  | trans _ _ ih1 ih2 => exact ih1.trans ih2

theorem prefix_proper_length {α : Type} {u v : List α} (hp : u <+: v) (hne : u ≠ v) :
    u.length < v.length := by
  rcases Nat.lt_or_ge u.length v.length with h | h
  · exact h
  · exact absurd (List.IsPrefix.eq_of_length hp (le_antisymm hp.length_le h)) hne

theorem anc_chain_prefix {st : List Comment} {p d : Comment}
    (h : IsAncestor st p d) : chain st p <+: chain st d ∧ chain st p ≠ chain st d := by
  induction h with
  | parent _ hp =>
    rw [chain_effParent_some hp]
    exact ⟨List.prefix_append _ _, by
      intro he
      have := congrArg List.length he
      simp at this⟩
  | trans _ _ ih1 ih2 =>
    refine ⟨ih1.1.trans ih2.1, ?_⟩
    intro he
    have h1 := prefix_proper_length ih1.1 ih1.2
    have h2 := prefix_proper_length ih2.1 ih2.2
    rw [he] at h1
    omega

theorem prefix_of_concat {α : Type} {pre xs : List α} {x : α}
    (hp : pre <+: xs ++ [x]) (hne : pre ≠ xs ++ [x]) : pre <+: xs := by
  have hlen : pre.length < (xs ++ [x]).length := prefix_proper_length hp hne
  have hlen' : pre.length ≤ xs.length := by
    simp at hlen
    omega
  exact List.prefix_of_prefix_length_le hp (List.prefix_append _ _) hlen'

/-- Every nonempty strict prefix of a comment's id chain is the chain of one
of its ancestors. -/
theorem chain_prefix_to_anc {st : List Comment} :
    ∀ (n : Nat) (d : Comment), d.id ≤ n → d ∈ st → ∀ (pre : List Nat),
      pre <+: chain st d → pre ≠ chain st d → pre ≠ [] →
      ∃ a, IsAncestor st a d ∧ chain st a = pre := by
  intro n
  induction n using Nat.strong_induction_on with
  | _ n ih =>
    intro d hdn hd pre hp hne hnil
    cases hpar : effParent st d with
    | none =>
      rw [chain_effParent_none hpar] at hp hne
      obtain ⟨t, ht⟩ := hp
      cases pre with
      | nil => exact absurd rfl hnil
      | cons a pre' =>
        simp at ht
        obtain ⟨ha, hpt, htn⟩ := ht
        subst ha hpt htn
        exact absurd rfl hne
    | some p =>
      have hplt := effParent_lt hpar
      have hpmem := effParent_mem hpar
      rw [chain_effParent_some hpar] at hp hne
      have hpre : pre <+: chain st p := prefix_of_concat hp hne
      by_cases hcase : pre = chain st p
      · exact ⟨p, IsAncestor.parent hd hpar, hcase.symm⟩
      · obtain ⟨a, ha1, ha2⟩ :=
          ih p.id (by omega) p (le_refl _) hpmem pre hpre hcase hnil
        exact ⟨a, IsAncestor.trans ha1 (IsAncestor.parent hd hpar), ha2⟩

theorem chain_inj {st : List Comment} (h : Built st) {a b : Comment}
    (ha : a ∈ st) (hb : b ∈ st) (he : chain st a = chain st b) : a = b := by
  have h1 := chain_getLast st a (chain_ne_nil st a)
  have h2 := chain_getLast st b (chain_ne_nil st b)
  have : a.id = b.id := by
    rw [← h1, ← h2]
    congr 1
  exact built_id_inj h a ha b hb this

/-- Claim C3 (amended): for every reachable comment state whose ids stay below
`10^6` (the fixed segment width of the `%06d` padding), and every post `P`,
any listing `L` of the post's comments sorted lexicographically by their
`path` strings is a pre-order traversal of the comment tree:
(1) each comment's parent appears at an earlier position,
(2) the block between a comment and any of its descendants consists only of
its descendants (the subtree is contiguous, immediately after the parent), and
(3) sibling subtrees appear in creation (id) order: an earlier sibling and
its entire subtree precede a later sibling. -/
theorem comment_path_preorder_bounded
    (st : List Comment) (hb : Built st)
    (hbound : ∀ c ∈ st, c.id < 1000000)
    (P : Nat) (L : List Comment)
    (hperm : L.Perm (st.filter (fun c => c.post_id == P)))
    (hsort : L.Pairwise (fun a b => lexB b.path a.path = false)) :
    (∀ (j : Fin L.length) (p : Comment), effParent st (L.get j) = some p →
        ∃ i : Fin L.length, i < j ∧ L.get i = p) ∧
    (∀ (i j k : Fin L.length), i < j → j < k →
        IsAncestor st (L.get i) (L.get k) → IsAncestor st (L.get i) (L.get j)) ∧
    (∀ (i j : Fin L.length), effParent st (L.get i) = effParent st (L.get j) →
        (L.get i).id < (L.get j).id →
        i < j ∧ ∀ k : Fin L.length, IsAncestor st (L.get i) (L.get k) → k < j) := by
  have hmem : ∀ c ∈ L, c ∈ st ∧ c.post_id = P := by
    intro c hc
    have h1 := hperm.mem_iff.mp hc
    rw [List.mem_filter] at h1
    exact ⟨h1.1, by simpa using h1.2⟩
  have hmem' : ∀ c ∈ st, c.post_id = P → c ∈ L := by
    intro c hc hP
    exact hperm.mem_iff.mpr (List.mem_filter.mpr ⟨hc, by simpa using hP⟩)
  have hnd : L.Nodup :=
    (List.Perm.nodup_iff hperm).mpr ((built_nodup hb).filter _)
  have hget : ∀ i : Fin L.length, L.get i ∈ st := fun i =>
    (hmem _ (L.get_mem i.1 i.2)).1
  have hcmp : ∀ c ∈ st, ∀ d ∈ st,
      lexB c.path d.path = lexB (chain st c) (chain st d) := by
    intro c hc d hd
    rw [(built_rowsOk hb c hc).1, (built_rowsOk hb d hd).1]
    exact lexB_renderChain _ _
      (chain_elems_lt hbound c.id c (le_refl _) hc)
      (chain_elems_lt hbound d.id d (le_refl _) hd)
  have hpos : ∀ (i j : Fin L.length),
      lexB (L.get i).path (L.get j).path = true → i < j := by
    intro i j hlex
    rcases lt_trichotomy i j with h | h | h
    · exact h
    · subst h
      rw [lexB_irrefl] at hlex
      exact absurd hlex (by simp)
    · have hpw := List.pairwise_iff_get.mp hsort j i h
      rw [hlex] at hpw
      exact absurd hpw (by simp)
  have hchainlt : ∀ (a b : Fin L.length), a < b →
      lexB (chain st (L.get a)) (chain st (L.get b)) = true := by
    intro a b hab
    have hne : L.get a ≠ L.get b := by
      intro he
      exact absurd ((List.Nodup.get_inj_iff hnd).mp he) (Fin.ne_of_lt hab)
    have hcne : chain st (L.get a) ≠ chain st (L.get b) := fun he =>
      hne (chain_inj hb (hget a) (hget b) he)
    rcases lexB_total_of_ne _ _ hcne with h1 | h1
    · exact h1
    · have h2 : lexB (L.get b).path (L.get a).path = true := by
        rw [hcmp _ (hget b) _ (hget a)]
        exact h1
      exact absurd (hpos b a h2) (not_lt.mpr hab.le)
  have hposC : ∀ (i j : Fin L.length),
      lexB (chain st (L.get i)) (chain st (L.get j)) = true → i < j := by
    intro i j h1
    apply hpos
    rw [hcmp _ (hget i) _ (hget j)]
    exact h1
  refine ⟨?_, ?_, ?_⟩
  · -- (1) parent precedes child
    intro j p hep
    obtain ⟨hjst, hjP⟩ := hmem _ (L.get_mem j.1 j.2)
    have hpmem : p ∈ st := effParent_mem hep
    have hpP : p.post_id = P := (effParent_post hep).trans hjP
    obtain ⟨i, hi⟩ := List.mem_iff_get.mp (hmem' p hpmem hpP)
    refine ⟨i, ?_, hi⟩
    apply hposC
    rw [hi, chain_effParent_some hep]
    exact lexB_self_append _ _ _
  · -- (2) descendants are contiguous after the ancestor
    intro i j k hij hjk hanc
    obtain ⟨hpref, hprne⟩ := anc_chain_prefix hanc
    have h1 := hchainlt i j hij
    have h2 := hchainlt j k hjk
    have hprefix : chain st (L.get i) <+: chain st (L.get j) :=
      lexB_between_prefix _ _ _ hpref hprne h1 h2
    by_cases heq : chain st (L.get i) = chain st (L.get j)
    · have := chain_inj hb (hget i) (hget j) heq
      have := (List.Nodup.get_inj_iff hnd).mp this
      exact absurd this (Fin.ne_of_lt hij)
    · obtain ⟨a, hanc', hca⟩ :=
        chain_prefix_to_anc (L.get j).id (L.get j) (le_refl _) (hget j)
          (chain st (L.get i)) hprefix heq (chain_ne_nil st (L.get i))
      have ha : a = L.get i :=
        chain_inj hb (anc_mem_left hanc') (hget i) hca
      rw [← ha]
      exact hanc'
  · -- (3) sibling subtrees in creation order
    intro i j hepEq hidlt
    cases hp : effParent st (L.get i) with
    | none =>
      have hpj : effParent st (L.get j) = none := by rw [← hepEq, hp]
      have hci := chain_effParent_none hp
      have hcj := chain_effParent_none hpj
      have hlex : lexB (chain st (L.get i)) (chain st (L.get j)) = true := by
        rw [hci, hcj]
        simpa using lexB_append_lt [] (L.get i).id (L.get j).id [] [] hidlt
      refine ⟨hposC i j hlex, ?_⟩
      intro k hk
      obtain ⟨hpref, _⟩ := anc_chain_prefix hk
      rw [hci] at hpref
      obtain ⟨t, ht⟩ := hpref
      apply hposC
      rw [hcj, ← ht]
      simpa using lexB_append_lt [] (L.get i).id (L.get j).id t [] hidlt
    | some q =>
      have hpj : effParent st (L.get j) = some q := by rw [← hepEq, hp]
      have hci := chain_effParent_some hp
      have hcj := chain_effParent_some hpj
      have hlex : lexB (chain st (L.get i)) (chain st (L.get j)) = true := by
        rw [hci, hcj]
        exact lexB_append_lt (chain st q) (L.get i).id (L.get j).id [] [] hidlt
      refine ⟨hposC i j hlex, ?_⟩
      intro k hk
      obtain ⟨hpref, _⟩ := anc_chain_prefix hk
      rw [hci] at hpref
      obtain ⟨t, ht⟩ := hpref
      apply hposC
      rw [hcj, ← ht]
      rw [List.append_assoc]
      exact lexB_append_lt (chain st q) (L.get i).id (L.get j).id t [] hidlt

/-- The worked example of the spec: a root comment (id 42) on post 7, a reply
(id 43) to it, and a reply (id 50) to the reply. -/
def exampleThread : List Comment :=
  add_comment (add_comment (add_comment [] 7 none 42) 7 (some 42) 43) 7 (some 43) 50

theorem exampleThread_built : Built exampleThread :=
  Built.step _ 7 (some 43) 50
    (Built.step _ 7 (some 42) 43
      (Built.step _ 7 none 42 Built.nil (by decide))
      (by decide))
    (by decide)

/-- Two root comments on post 1 whose ids straddle the `10^6` padding limit:
id 999999 is inserted first, id 1000000 second. -/
def overflowThread : List Comment :=
  add_comment (add_comment [] 1 none 999999) 1 none 1000000

theorem overflowThread_built : Built overflowThread :=
  Built.step _ 1 none 1000000
    (Built.step _ 1 none 999999 Built.nil (by decide))
    (by decide)

/-- The path-sorted listing of `overflowThread`: the path of id 1000000 is
the 7-character string "1000000", which sorts lexicographically before the
6-character "999999". -/
def overflowSorted : List Comment :=
  [{ id := 1000000, post_id := 1, parent_id := none, depth := 0, path := pad 1000000 },
   { id := 999999, post_id := 1, parent_id := none, depth := 0, path := pad 999999 }]

/-- Claim C3 (counterexample): the claim as stated fails once comment ids reach
`10^6`.  `overflowThread` is a reachable state (database serials are not
bounded by `10^6`) with two root comments on post 1 created in the order
999999, then 1000000.  Their paths are "999999" and "1000000", and sorting
the post's comments lexicographically by path puts the later-created sibling
(id 1000000) first, so the sorted order does not list sibling subtrees in
creation order and is not a pre-order traversal in the claimed sense. -/
theorem comment_path_order_counterexample :
    Built overflowThread ∧
    overflowSorted.Perm (overflowThread.filter (fun c => c.post_id == 1)) ∧
    overflowSorted.Pairwise (fun a b => lexB b.path a.path = false) ∧
    pad 999999 = "999999".toList ∧ pad 1000000 = "1000000".toList ∧
    ¬ (∀ (i j : Fin overflowSorted.length),
        effParent overflowThread (overflowSorted.get i)
          = effParent overflowThread (overflowSorted.get j) →
        (overflowSorted.get i).id < (overflowSorted.get j).id → i < j) :=
  ⟨overflowThread_built, by decide, by decide, by decide, by decide, by decide⟩

/-- Claim C3 (witness): the amended pre-order theorem applied to the spec's
worked example thread (ids 42, 43, 50 on post 7), whose path-sorted listing
is its insertion order. -/
theorem comment_path_preorder_bounded_witness :
    Built exampleThread ∧ (∀ c ∈ exampleThread, c.id < 1000000) ∧
    exampleThread.Perm (exampleThread.filter (fun c => c.post_id == 7)) ∧
    exampleThread.Pairwise (fun a b => lexB b.path a.path = false) ∧
    (∀ (j : Fin exampleThread.length) (p : Comment),
        effParent exampleThread (exampleThread.get j) = some p →
        ∃ i : Fin exampleThread.length, i < j ∧ exampleThread.get i = p) :=
  ⟨exampleThread_built, by decide, by decide, by decide,
    (comment_path_preorder_bounded exampleThread exampleThread_built (by decide) 7
      exampleThread (by decide) (by decide)).1⟩

theorem built_path_ne_nil {st : List Comment} (hb : Built st) {p : Comment}
    (hp : p ∈ st) : p.path ≠ [] := by
  rw [(built_rowsOk hb p hp).1]
  exact renderChain_ne_nil _ (chain_ne_nil st p)

/-- Claim C4: for every newly created comment on a reachable state: with an
existing parent on the same post the new row gets `depth = parent.depth + 1`
and `path = parent.path ++ "/" ++ pad(cid)`; a root comment gets depth 0 and
`path = pad(cid)`; and for ids below `10^6` the segment `pad(cid)` is the
6-character zero-padded decimal form of the id. -/
theorem comment_path_depth_construction
    (st : List Comment) (hb : Built st) (post cid : Nat) :
    (∀ (pid : Nat) (p : Comment), pid ≠ 0 → find_parent st pid post = some p →
      add_comment st post (some pid) cid
        = st ++ [{ id := cid, post_id := post, parent_id := some pid,
                   depth := p.depth + 1, path := p.path ++ '/' :: pad cid }]) ∧
    (add_comment st post none cid
        = st ++ [{ id := cid, post_id := post, parent_id := none,
                   depth := 0, path := pad cid }]) ∧
    (cid < 1000000 → (pad cid).length = 6) := by
  refine ⟨?_, ?_, ?_⟩
  · intro pid p hpid hfp
    have hl : lookup_parent st post (some pid) = some p := by
      simp [lookup_parent, hpid, hfp]
    rw [add_comment_some cid hl,
      if_neg (built_path_ne_nil hb (find_parent_mem hfp))]
  · exact add_comment_none cid rfl
  · intro hlt
    rw [pad_eq_padW hlt, padW_length]

def threadStep1 : List Comment := add_comment [] 7 none 42

theorem threadStep1_built : Built threadStep1 :=
  Built.step [] 7 none 42 Built.nil (by decide)

def rootComment42 : Comment :=
  { id := 42, post_id := 7, parent_id := none, depth := 0, path := pad 42 }

def replyComment43 : Comment :=
  { id := 43, post_id := 7, parent_id := some 42,
    depth := rootComment42.depth + 1,
    path := rootComment42.path ++ '/' :: pad 43 }

/-- Claim C4 (witness): the construction rule evaluated on the spec's example:
root comment id 42 on post 7 has path "000042"; the reply id 43 gets
depth 1 and path "000042/000043". -/
theorem comment_path_depth_construction_witness :
    (42 : Nat) ≠ 0 ∧
    find_parent threadStep1 42 7 = some rootComment42 ∧
    rootComment42.path = "000042".toList ∧
    (add_comment threadStep1 7 (some 42) 43 = threadStep1 ++ [replyComment43]) ∧
    replyComment43.path = "000042/000043".toList ∧
    replyComment43.depth = 1 ∧ (pad 43).length = 6 :=
  ⟨by decide, by decide, by decide,
    (comment_path_depth_construction threadStep1 threadStep1_built 7 43).1
      42 rootComment42 (by decide) (by decide),
    by decide, by decide,
    (comment_path_depth_construction threadStep1 threadStep1_built 7 43).2.2 (by decide)⟩

/-- The foreign-key constraint on `comments.parent_id` added by
`ensure_schema` (app_core.py: `ALTER TABLE comments ADD COLUMN parent_id
INTEGER REFERENCES comments(id) ON DELETE CASCADE`).  A non-NULL `parent_id`
is admissible only if some comment row carries that id — the freshly inserted
row included, since the constraint is checked at the end of the INSERT
statement, after the new row is in place. -/
def fk_okB (st : List Comment) (parent_id : Option Nat) (cid : Nat) : Bool :=
  match parent_id with
  | none => true
  | some pid => st.any (fun c => c.id == pid) || pid == cid

/-- The database-level outcome of the comment INSERT: the rows computed by
`add_comment` when the `parent_id` foreign key is satisfied; `none` when it
is violated — the statement raises, the transaction is not committed, and no
comment is stored. -/
def add_comment_db (st : List Comment) (post : Nat) (parent_id : Option Nat)
    (cid : Nat) : Option (List Comment) :=
  if fk_okB st parent_id cid then some (add_comment st post parent_id cid)
  else none

def crossPostState : List Comment := add_comment [] 1 none 1

def crossPostComment : Comment :=
  { id := 2, post_id := 2, parent_id := some 1, depth := 0, path := pad 2 }

/-- Claim C8 (counterexample): comment id 1 exists on post 1; a comment is
then created on post 2 with `parent_id = 1`.  No comment with id 1 exists on
post 2, so the claimed fallback fires, and the insert passes the foreign key
(id 1 exists, on the other post): the row is stored with depth 0 and
root-form path — but with the supplied `parent_id = 1` recorded in it,
refuting the claim's "no parent recorded". -/
theorem dangling_parent_recorded_counterexample :
    find_parent crossPostState 1 2 = none ∧
    fk_okB crossPostState (some 1) 2 = true ∧
    add_comment_db crossPostState 2 (some 1) 2
      = some (crossPostState ++ [crossPostComment]) ∧
    crossPostComment.depth = 0 ∧ crossPostComment.path = pad 2 ∧
    crossPostComment.parent_id ≠ none :=
  ⟨by decide, by decide, by decide, by decide, by decide, by decide⟩

/-- Claim C8 (amended): when the supplied `parent_id` is untruthy or does not
resolve to a comment of the same post, the application computes a root-form
row: depth 0, root path, and the supplied `parent_id` persisted unchanged.
Whether it is stored is decided by the `parent_id` foreign key: if a comment
with that id exists (necessarily on another post, or the new row's own id),
the dangling-parent row is committed as computed; if no comment with that id
exists at all, the INSERT violates the foreign key and no comment is stored. -/
theorem dangling_parent_root_fallback
    (st : List Comment) (post pid cid : Nat)
    (h : pid = 0 ∨ find_parent st pid post = none) :
    (fk_okB st (some pid) cid = true →
      add_comment_db st post (some pid) cid
        = some (st ++ [{ id := cid, post_id := post, parent_id := some pid,
                         depth := 0, path := pad cid }])) ∧
    (fk_okB st (some pid) cid = false →
      add_comment_db st post (some pid) cid = none) := by
  have happ : add_comment st post (some pid) cid
      = st ++ [{ id := cid, post_id := post, parent_id := some pid,
                 depth := 0, path := pad cid }] := by
    apply add_comment_none
    rcases h with h0 | hf
    · simp [lookup_parent, h0]
    · by_cases h0 : pid = 0
      · simp [lookup_parent, h0]
      · simp [lookup_parent, h0, hf]
  constructor
  · intro hfk
    unfold add_comment_db
    rw [hfk, if_pos rfl, happ]
  · intro hfk
    unfold add_comment_db
    rw [hfk]
    rfl

/-- Claim C8 (witness): both branches of the amended fallback at concrete
inputs — the cross-post dangling parent (id 1 lives on post 1, referenced
from post 2) is stored with the parent recorded, while a fully dangling
`parent_id = 99` on the empty state stores nothing. -/
theorem dangling_parent_root_fallback_witness :
    find_parent crossPostState 1 2 = none ∧
    fk_okB crossPostState (some 1) 2 = true ∧
    add_comment_db crossPostState 2 (some 1) 2
      = some (crossPostState ++ [{ id := 2, post_id := 2, parent_id := some 1,
                                   depth := 0, path := pad 2 }]) ∧
    find_parent ([] : List Comment) 99 1 = none ∧
    fk_okB ([] : List Comment) (some 99) 5 = false ∧
    add_comment_db [] 1 (some 99) 5 = none :=
  ⟨by decide, by decide,
    (dangling_parent_root_fallback crossPostState 2 1 2 (Or.inr (by decide))).1
      (by decide),
    by decide, by decide,
    (dangling_parent_root_fallback [] 1 99 5 (Or.inr (by decide))).2 (by decide)⟩

/-! ## The faceted search filter builder (`build_posts_filter_sql`, app_core.py) -/

/-- A positional SQL parameter, as appended by `build_posts_filter_sql`. -/
inductive SqlParam where
  | s (v : String)
  | n (v : Nat)
  | ns (v : List Nat)
deriving DecidableEq, Repr

/-- One conjunct of the WHERE clause built by `build_posts_filter_sql`,
carrying the data its placeholders are bound to. -/
inductive Cond where
  | statusPublic
  | genreEq (g : String)
  | kwMatch (k : String)
  | tagsAll (tids : List Nat)
deriving DecidableEq, Repr

/-- The SQL text of each conjunct (placeholders written `%s`, whitespace of
the source normalised to single spaces). -/
def renderCond : Cond → String
  | .statusPublic => "p.status=\x27public\x27"
  | .genreEq _ => "p.genre=%s"
  | .kwMatch _ => "p.search_vec @@ websearch_to_tsquery(\x27simple\x27, %s)"
  | .tagsAll _ =>
      "p.id IN (SELECT pt.post_id FROM post_tags pt WHERE pt.tag_id = ANY(%s) GROUP BY pt.post_id HAVING COUNT(DISTINCT pt.tag_id) = %s)"

def rank_sql_text : String :=
  "ts_rank(p.search_vec, websearch_to_tsquery(\x27simple\x27, %s)) AS rank"

structure FilterSql where
  conds : List Cond
  whereSql : String
  params : List SqlParam
  rankSql : Option String
deriving DecidableEq, Repr

/-- Shallow embedding of `build_posts_filter_sql(keyword, selected_genre,
selected_tag_ids, include_non_public)` (app_core.py): conjuncts and positional
parameters are appended in source order (status, genre, keyword, tags); the
rank expression exists exactly when the keyword is truthy (non-empty), and its
own `%s` placeholder is *not* accounted for in `params` — the caller must
prepend the keyword itself. -/
def build_posts_filter_sql (keyword : String) (selected_genre : Option String)
    (selected_tag_ids : List Nat) (include_non_public : Bool) : FilterSql :=
  let conds :=
    (if include_non_public then [] else [Cond.statusPublic])
    ++ (match selected_genre with
        | some g => if g ≠ "" then [Cond.genreEq g] else []
        | none => [])
    ++ (if keyword ≠ "" then [Cond.kwMatch keyword] else [])
    ++ (if selected_tag_ids ≠ [] then [Cond.tagsAll selected_tag_ids] else [])
  let params :=
    (match selected_genre with
     | some g => if g ≠ "" then [SqlParam.s g] else []
     | none => [])
    ++ (if keyword ≠ "" then [SqlParam.s keyword] else [])
    ++ (if selected_tag_ids ≠ [] then
          [SqlParam.ns selected_tag_ids, SqlParam.n selected_tag_ids.length]
        else [])
  { conds := conds
    whereSql :=
      if conds = [] then ""
      else "WHERE " ++ String.intercalate " AND " (conds.map renderCond)
    params := params
    rankSql := if keyword ≠ "" then some rank_sql_text else none }

/-- The post columns a filter evaluation looks at. -/
structure PostRecord where
  id : Nat
  genre : Option String
  status : String
deriving DecidableEq, Repr

/-- Truth value of one conjunct on a post, relative to the `post_tags` join
table (rows `(post_id, tag_id)`) and an abstract full-text match predicate
`kwMatches` standing for `search_vec @@ websearch_to_tsquery(...)`.
The tag conjunct is the source subquery: the post qualifies when the number
of distinct requested tags attached to it equals the length of the requested
list. -/
def evalCond (kwMatches : String → PostRecord → Bool)
    (ptags : List (Nat × Nat)) (p : PostRecord) : Cond → Bool
  | .statusPublic => p.status == "public"
  | .genreEq g => p.genre == some g
  | .kwMatch k => kwMatches k p
  | .tagsAll tids =>
      ((ptags.filter (fun e => e.1 == p.id && decide (e.2 ∈ tids))).map
        Prod.snd).dedup.length == tids.length

/-- A post passes the filter when every conjunct holds. -/
def evalFilter (kwMatches : String → PostRecord → Bool)
    (ptags : List (Nat × Nat)) (p : PostRecord) (f : FilterSql) : Bool :=
  f.conds.all (evalCond kwMatches ptags p)

/-- Claim C1: every filter built with `include_non_public = false` contains the
conjunct `p.status='public'`, whatever the keyword, genre and tag arguments
are; consequently a post satisfying the built predicate necessarily has
status "public" — the listing never returns a non-public row under any
combination of keyword/genre/tag filters. -/
theorem filter_nonpublic_excluded
    (keyword : String) (selected_genre : Option String)
    (selected_tag_ids : List Nat)
    (kwMatches : String → PostRecord → Bool)
    (ptags : List (Nat × Nat)) (p : PostRecord) :
    Cond.statusPublic
      ∈ (build_posts_filter_sql keyword selected_genre selected_tag_ids false).conds ∧
    (evalFilter kwMatches ptags p
        (build_posts_filter_sql keyword selected_genre selected_tag_ids false) = true →
      p.status = "public") := by
  constructor
  · simp [build_posts_filter_sql]
  · intro h
    have hmem : Cond.statusPublic
        ∈ (build_posts_filter_sql keyword selected_genre selected_tag_ids false).conds := by
      simp [build_posts_filter_sql]
    have := List.all_eq_true.mp h _ hmem
    simpa [evalCond] using this

/-- Claim C1 (witness): the security invariant evaluated at a concrete public
post satisfying a concrete filter. -/
theorem filter_nonpublic_excluded_witness :
    evalFilter (fun _ _ => true) [(3, 2)]
        { id := 3, genre := some "art", status := "public" }
        (build_posts_filter_sql "robot" (some "art") [2] false) = true ∧
    ({ id := 3, genre := some "art", status := "public" } : PostRecord).status
      = "public" :=
  ⟨by decide,
    (filter_nonpublic_excluded "robot" (some "art") [2] (fun _ _ => true)
      [(3, 2)] { id := 3, genre := some "art", status := "public" }).2 (by decide)⟩

/-- Claim C2: for a non-empty duplicate-free list of requested tag ids, the tag
conjunct of the filter holds for a post exactly when *all* requested tags are
attached to it (AND semantics): the count of distinct requested tags attached
equals the number requested iff the requested set is a subset of the post's
tags, so a post carrying only some of the requested tags is never returned. -/
theorem tag_filter_and_semantics
    (kwMatches : String → PostRecord → Bool) (ptags : List (Nat × Nat))
    (p : PostRecord) (tids : List Nat) (hnd : tids.Nodup) (hne : tids ≠ []) :
    (evalCond kwMatches ptags p (Cond.tagsAll tids) = true
      ↔ ∀ t ∈ tids, (p.id, t) ∈ ptags) := by
  show ((((ptags.filter (fun e => e.1 == p.id && decide (e.2 ∈ tids))).map
      Prod.snd).dedup.length == tids.length) = true ↔ _)
  set l := (ptags.filter (fun e => e.1 == p.id && decide (e.2 ∈ tids))).map
    Prod.snd with hl
  rw [beq_iff_eq]
  have hsub : l.toFinset ⊆ tids.toFinset := by
    intro x hx
    rw [List.mem_toFinset] at hx ⊢
    rw [hl, List.mem_map] at hx
    obtain ⟨e, he, rfl⟩ := hx
    rw [List.mem_filter] at he
    have h2 := he.2
    simp at h2
    exact h2.2
  have h1 : l.dedup.length = l.toFinset.card := (List.card_toFinset l).symm
  have h2 : tids.length = tids.toFinset.card := (List.toFinset_card_of_nodup hnd).symm
  rw [h1, h2]
  constructor
  · intro hcard t ht
    have heq : l.toFinset = tids.toFinset :=
      Finset.eq_of_subset_of_card_le hsub (le_of_eq hcard.symm)
    have hmem : t ∈ l.toFinset := by
      rw [heq, List.mem_toFinset]
      exact ht
    rw [List.mem_toFinset, hl, List.mem_map] at hmem
    obtain ⟨e, he, hee⟩ := hmem
    rw [List.mem_filter] at he
    have h3 := he.2
    simp at h3
    have hep : e = (p.id, t) := by
      obtain ⟨e1, e2⟩ := e
      simp at h3 hee
      simp [h3.1, hee]
    rw [← hep]
    exact he.1
  · intro hall
    have hsup : tids.toFinset ⊆ l.toFinset := by
      intro t ht
      rw [List.mem_toFinset] at ht
      rw [List.mem_toFinset, hl, List.mem_map]
      exact ⟨(p.id, t), List.mem_filter.mpr ⟨hall t ht, by simp [ht]⟩, rfl⟩
    rw [Finset.Subset.antisymm hsub hsup]

/-- Claim C2 (witness): the AND semantics evaluated at the spec's example
`tag_ids = {2, 5}` on a post carrying both tags. -/
theorem tag_filter_and_semantics_witness :
    ([2, 5] : List Nat).Nodup ∧ ([2, 5] : List Nat) ≠ [] ∧
    (evalCond (fun _ _ => true) [(3, 2), (3, 5), (4, 2)]
        { id := 3, genre := none, status := "public" } (Cond.tagsAll [2, 5]) = true
      ↔ ∀ t ∈ ([2, 5] : List Nat),
          ((3 : Nat), t) ∈ [((3 : Nat), (2 : Nat)), (3, 5), (4, 2)]) :=
  ⟨by decide, by decide,
    tag_filter_and_semantics (fun _ _ => true) [(3, 2), (3, 5), (4, 2)]
      { id := 3, genre := none, status := "public" } [2, 5] (by decide) (by decide)⟩

/-! ## Listing and export query assembly (views_posts.py / views_api.py) -/

/-- The sort-key dictionary shared by `show_posts`, `export_posts_csv` and
`export_posts_json` (`.get(sort, "p.created_at DESC")`). -/
def order_by_map (sort : String) : String :=
  if sort = "new" then "p.created_at DESC"
  else if sort = "updated" then "p.updated_at DESC NULLS LAST, p.created_at DESC"
  else if sort = "old" then "p.created_at ASC"
  else if sort = "likes" then "favorite_count DESC NULLS LAST, p.created_at DESC"
  else if sort = "ai" then "p.ai_name ASC, p.created_at DESC"
  else if sort = "relevance" then "rank DESC NULLS LAST, p.created_at DESC"
  else "p.created_at DESC"

/-- The SELECT column list of the interactive listing (`show_posts`),
extended with the rank expression when one exists. -/
def select_cols_listing (rank : Option String) : String :=
  "p.id, p.genre, p.title, p.content, p.tools, p.chatlog, p.ai_name, p.author, p.image_url, p.image_orig_url, p.image_thumb_url, p.created_at, p.updated_at, p.status, COALESCE(fc.cnt, 0) AS favorite_count"
    ++ (match rank with | some r => ", " ++ r | none => "")

/-- The SELECT column list of the CSV/JSON exports. -/
def select_cols_export (rank : Option String) : String :=
  "p.*, COALESCE(fc.cnt,0) AS favorite_count"
    ++ (match rank with | some r => ", " ++ r | none => "")

/-- The page-fetch SQL text executed by `show_posts` (whitespace normalised);
its `%s` placeholders appear in the order: rank expression (if any), WHERE
conjuncts, LIMIT, OFFSET. -/
def show_posts_query (keyword : String) (genre : Option String)
    (tids : List Nat) (is_mod : Bool) (sort : String) : String :=
  let f := build_posts_filter_sql keyword genre tids is_mod
  "WITH fav AS ( SELECT post_id, COUNT(*) AS cnt FROM favorites GROUP BY post_id ) SELECT "
    ++ select_cols_listing f.rankSql
    ++ " FROM posts p LEFT JOIN fav fc ON fc.post_id = p.id "
    ++ f.whereSql ++ " ORDER BY " ++ order_by_map sort ++ " LIMIT %s OFFSET %s"

/-- The parameter list `show_posts` passes to that query:
`final_params = list(params) + [per_page, offset]` — the keyword for the
rank placeholder is *not* prepended (views_posts.py line 107). -/
def show_posts_final_params (keyword : String) (genre : Option String)
    (tids : List Nat) (is_mod : Bool) (per_page offset : Nat) : List SqlParam :=
  (build_posts_filter_sql keyword genre tids is_mod).params
    ++ [SqlParam.n per_page, SqlParam.n offset]

/-- The SQL text executed by the CSV/JSON exports (identical in both files). -/
def export_posts_query (keyword : String) (genre : Option String)
    (tids : List Nat) (is_mod : Bool) (sort : String) : String :=
  let f := build_posts_filter_sql keyword genre tids is_mod
  "WITH fav AS (SELECT post_id, COUNT(*) AS cnt FROM favorites GROUP BY post_id) SELECT "
    ++ select_cols_export f.rankSql
    ++ " FROM posts p LEFT JOIN fav fc ON fc.post_id=p.id "
    ++ f.whereSql ++ " ORDER BY " ++ order_by_map sort

/-- The parameter list of the exports: when a rank expression exists the
keyword is prepended as the leading parameter (`final_params.append(keyword)`
before `final_params += params`). -/
def export_posts_final_params (keyword : String) (genre : Option String)
    (tids : List Nat) (is_mod : Bool) : List SqlParam :=
  let f := build_posts_filter_sql keyword genre tids is_mod
  (match f.rankSql with | some _ => [SqlParam.s keyword] | none => []) ++ f.params

/-- Number of `%s` placeholders of a query (no other `%` occurs in any of the
assembled SQL fragments). -/
def placeholders (s : String) : Nat := s.toList.countP (fun c => c == '%')

/-- Whether `pat` occurs as a contiguous segment of `s`. -/
def strHasSeg (pat : List Char) : List Char → Bool
  | [] => pat.isEmpty
  | c :: rest => pat.isPrefixOf (c :: rest) || strHasSeg pat rest

set_option maxRecDepth 20000 in
/-- Claim C5 (code bug): at the failing input — a non-staff request with the
non-empty keyword "ai" and no genre/tag filters — the interactive listing
builds a query with 4 placeholders (rank, WHERE keyword, LIMIT, OFFSET) but
supplies only 3 parameters, because `show_posts` does not prepend the keyword
for the rank expression; the CSV/JSON exports do prepend it (their leading
parameter is the keyword) and their parameter count matches their
placeholder count. -/
theorem listing_rank_param_mismatch :
    placeholders (show_posts_query "ai" none [] false "new") = 4 ∧
    (show_posts_final_params "ai" none [] false 8 0).length = 3 ∧
    placeholders (export_posts_query "ai" none [] false "new") = 2 ∧
    (export_posts_final_params "ai" none [] false).length = 2 ∧
    (export_posts_final_params "ai" none [] false).head? = some (SqlParam.s "ai") ∧
    (show_posts_final_params "ai" none [] false 8 0).head? ≠ some (SqlParam.n 8) ∧
    placeholders (show_posts_query "ai" none [] false "new")
      ≠ (show_posts_final_params "ai" none [] false 8 0).length :=
  ⟨by decide, by decide, by decide, by decide, by decide, by decide, by decide⟩

set_option maxRecDepth 20000 in
/-- Claim C7 (code bug): with sort key "relevance" and an empty keyword the
filter builder produces no rank expression, yet the sort dictionary still
maps "relevance" to an ORDER BY referencing the column alias `rank` — it
does not fall back to the default `p.created_at DESC` ordering, and the
emitted SELECT list does not define any `rank` alias. -/
theorem relevance_without_keyword_no_fallback :
    order_by_map "relevance" = "rank DESC NULLS LAST, p.created_at DESC" ∧
    (build_posts_filter_sql "" none [] false).rankSql = none ∧
    order_by_map "relevance" ≠ "p.created_at DESC" ∧
    strHasSeg "rank".toList (order_by_map "relevance").toList = true ∧
    strHasSeg "rank".toList (select_cols_listing none).toList = false :=
  ⟨by decide, by decide, by decide, by decide, by decide⟩

/-! ## Card image resolution (show_posts, views_posts.py lines 134-137) -/

/-- Python truthiness of a nullable string field. -/
def truthyStr : Option String → Bool
  | none => false
  | some s => s ≠ ""

/-- Python's `a or b` on nullable strings. -/
def pyOrStr (a b : Option String) : Option String :=
  if truthyStr a then a else b

/-- The card image resolution of `show_posts`:
`raw = p.get("image_thumb_url") or p.get("image_url") or p.get("image_orig_url")`
and `card_image_url = cdnize(raw) if raw else None`.
`cdn` abstracts `cdnize`, which rewrites the chosen URL but plays no part in
the choice. -/
def card_image_url (cdn : String → String)
    (image_thumb_url image_url image_orig_url : Option String) : Option String :=
  let raw := pyOrStr image_thumb_url (pyOrStr image_url image_orig_url)
  if truthyStr raw then raw.map cdn else none

/-- The resolution order asserted by the claim (thumbnail, else original
upload URL, else legacy image-url field), written for comparison with the
source's `card_image_url`. -/
def card_image_url_claimed_order (cdn : String → String)
    (image_thumb_url image_url image_orig_url : Option String) : Option String :=
  let raw := pyOrStr image_thumb_url (pyOrStr image_orig_url image_url)
  if truthyStr raw then raw.map cdn else none

/-- Claim C6 (counterexample): on a row with no thumbnail, legacy
`image_url = "legacy.jpg"` and original `image_orig_url = "orig.jpg"`, the
code resolves the card image to the legacy URL, not the original upload URL
as the claimed priority order would. -/
theorem card_image_priority_counterexample :
    card_image_url id none (some "legacy.jpg") (some "orig.jpg")
      = some "legacy.jpg" ∧
    card_image_url_claimed_order id none (some "legacy.jpg") (some "orig.jpg")
      = some "orig.jpg" ∧
    (some "legacy.jpg" : Option String) ≠ some "orig.jpg" :=
  ⟨by decide, by decide, by decide⟩

/-- Claim C6 (amended): the card image URL is the first non-empty value in the
fixed priority order thumbnail URL, else legacy single image-url field, else
original upload URL, else none. -/
theorem card_image_priority_resolution
    (cdn : String → String) (thumb image_url orig : Option String) :
    card_image_url cdn thumb image_url orig
      = (([thumb, image_url, orig].find? truthyStr).join).map cdn := by
  unfold card_image_url pyOrStr
  by_cases ht : truthyStr thumb
  · simp [List.find?, ht]
  · by_cases hiu : truthyStr image_url
    · simp [List.find?, ht, hiu]
    · by_cases ho : truthyStr orig
      · simp [List.find?, ht, hiu, ho]
      · simp [List.find?, ht, hiu, ho]

/-! ## Notification counters (`get_notify_counts_for_user`, app_core.py) -/

structure CommentRow where
  id : Nat
  post_id : Nat
  author : String
  parent_id : Option Nat
  created_at : Nat
deriving DecidableEq, Repr

structure PostRow where
  id : Nat
  author : String
deriving DecidableEq, Repr

structure FavRow where
  user_id : Nat
  post_id : Nat
  created_at : Nat
deriving DecidableEq, Repr

structure UserRow where
  id : Nat
  username : String
deriving DecidableEq, Repr

structure NotifyDb where
  posts : List PostRow
  comments : List CommentRow
  favorites : List FavRow
  users : List UserRow
deriving DecidableEq, Repr

/-- The `AND c.created_at > %s` clause, present only when a last-read
watermark exists for the category. -/
def time_ok (w : Option Nat) (t : Nat) : Bool :=
  match w with
  | none => true
  | some x => decide (x < t)

/-- Counter 1: `COUNT(*)` over `comments c JOIN posts p ON p.id=c.post_id
WHERE p.author=u AND c.author<>u [AND c.created_at > w]`; the join count is
the sum, over qualifying comments, of the number of matching post rows. -/
def cnt_comments_on_my_posts (db : NotifyDb) (u : String) (w : Option Nat) : Nat :=
  (db.comments.map (fun c =>
    if c.author != u && time_ok w c.created_at then
      db.posts.countP (fun p => p.id == c.post_id && p.author == u)
    else 0)).sum

/-- The watermark-free part of counter 2's predicate:
`c.parent_id IN (SELECT id FROM comments WHERE author=u) AND c.author<>u`. -/
def reply_base (db : NotifyDb) (u : String) (c : CommentRow) : Bool :=
  (match c.parent_id with
   | some pid => db.comments.any (fun c2 => c2.id == pid && c2.author == u)
   | none => false) && c.author != u

/-- Counter 2: replies (by someone else) to comments authored by `u`. -/
def cnt_replies_to_me (db : NotifyDb) (u : String) (w : Option Nat) : Nat :=
  db.comments.countP (fun c => reply_base db u c && time_ok w c.created_at)

/-- Counter 3: `COUNT(*)` over `favorites f JOIN posts p ON p.id=f.post_id
JOIN users usr ON usr.id=f.user_id WHERE p.author=u AND usr.username<>u
[AND f.created_at > w]`. -/
def cnt_favorites_on_my_posts (db : NotifyDb) (u : String) (w : Option Nat) : Nat :=
  (db.favorites.map (fun f =>
    if time_ok w f.created_at then
      db.posts.countP (fun p => p.id == f.post_id && p.author == u)
        * db.users.countP (fun usr => usr.id == f.user_id && usr.username != u)
    else 0)).sum

/-- The triple returned by `get_notify_counts_for_user`, given the per-category
last-read watermarks. -/
def get_notify_counts_for_user (db : NotifyDb) (u : String)
    (lastComments lastReplies lastFavorites : Option Nat) : Nat × Nat × Nat :=
  (cnt_comments_on_my_posts db u lastComments,
   cnt_replies_to_me db u lastReplies,
   cnt_favorites_on_my_posts db u lastFavorites)

theorem sum_map_filter {α : Type} (l : List α) (p : α → Bool) (f : α → Nat) :
    ((l.filter p).map f).sum = (l.map (fun a => if p a then f a else 0)).sum := by
  induction l with
  | nil => rfl
  | cons a t ih => by_cases h : p a <;> simp [h, ih]

theorem countP_partition {α : Type} (l : List α) (p q : α → Bool) :
    l.countP (fun a => p a && q a) + l.countP (fun a => p a && !(q a))
      = l.countP p := by
  induction l with
  | nil => rfl
  | cons a t ih =>
    by_cases hp : p a <;> by_cases hq : q a <;>
      simp [List.countP_cons, hp, hq] <;> omega

/-- Claim C9: each notification counter ignores self-caused events (adding an
event whose actor is the user leaves the counter unchanged), and with a
last-read watermark it counts exactly the qualifying events created strictly
after the watermark (equivalently: restricting the event table to rows with
`created_at > t` and dropping the watermark yields the same count), while
without a watermark all qualifying events count. -/
theorem notify_counts_spec (db : NotifyDb) (u : String) (w : Option Nat) (t : Nat) :
    (∀ c : CommentRow, c.author = u →
      cnt_comments_on_my_posts { db with comments := db.comments ++ [c] } u w
        = cnt_comments_on_my_posts db u w) ∧
    (∀ c : CommentRow, c.author = u →
      (∀ c2 ∈ db.comments, c2.parent_id ≠ some c.id) →
      cnt_replies_to_me { db with comments := db.comments ++ [c] } u w
        = cnt_replies_to_me db u w) ∧
    (∀ f : FavRow, (∀ usr ∈ db.users, usr.id = f.user_id → usr.username = u) →
      cnt_favorites_on_my_posts { db with favorites := db.favorites ++ [f] } u w
        = cnt_favorites_on_my_posts db u w) ∧
    (cnt_comments_on_my_posts db u (some t)
      = cnt_comments_on_my_posts
          { db with comments := db.comments.filter (fun c => decide (t < c.created_at)) }
          u none) ∧
    (cnt_replies_to_me db u (some t)
        + db.comments.countP
            (fun c => reply_base db u c && !(time_ok (some t) c.created_at))
      = cnt_replies_to_me db u none) ∧
    (cnt_favorites_on_my_posts db u (some t)
      = cnt_favorites_on_my_posts
          { db with favorites := db.favorites.filter (fun f => decide (t < f.created_at)) }
          u none) := by
  refine ⟨?_, ?_, ?_, ?_, ?_, ?_⟩
  · intro c hc
    unfold cnt_comments_on_my_posts
    rw [List.map_append, List.sum_append]
    simp [hc]
  · intro c hc hno
    unfold cnt_replies_to_me
    rw [List.countP_append]
    have hnew : List.countP
        (fun x => reply_base { db with comments := db.comments ++ [c] } u x
          && time_ok w x.created_at) [c] = 0 := by
      simp [reply_base, hc]
    have hold : ∀ c2 ∈ db.comments,
        (reply_base { db with comments := db.comments ++ [c] } u c2
          && time_ok w c2.created_at)
        = (reply_base db u c2 && time_ok w c2.created_at) := by
      intro c2 hc2
      unfold reply_base
      cases hpid : c2.parent_id with
      | none => rfl
      | some pid =>
        have hne : (c.id == pid) = false := by
          have := hno c2 hc2
          rw [hpid] at this
          simp
          intro he
          exact this (by rw [he])
        show (List.any (db.comments ++ [c]) _ && _ && _) = _
        rw [List.any_append]
        simp [hne]
    rw [hnew, Nat.add_zero]
    exact List.countP_congr (fun a ha => by rw [hold a ha])
  · intro f hf
    unfold cnt_favorites_on_my_posts
    rw [List.map_append, List.sum_append]
    have hzero : List.countP
        (fun usr => usr.id == f.user_id && usr.username != u) db.users = 0 := by
      rw [List.countP_eq_zero]
      intro usr husr
      simp only [Bool.and_eq_true, beq_iff_eq, bne_iff_ne, ne_eq, not_and]
      intro hid
      simpa using hf usr husr hid
    simp [hzero]
  · unfold cnt_comments_on_my_posts
    rw [sum_map_filter]
    refine congrArg List.sum (congrArg (fun f => List.map f db.comments)
      (funext fun c => ?_))
    by_cases hd : t < c.created_at <;> by_cases ha : c.author = u <;>
      simp [time_ok, hd, ha]
  · unfold cnt_replies_to_me
    have h := countP_partition db.comments (reply_base db u)
      (fun c => time_ok (some t) c.created_at)
    calc List.countP (fun c => reply_base db u c && time_ok (some t) c.created_at)
          db.comments
        + List.countP (fun c => reply_base db u c && !(time_ok (some t) c.created_at))
          db.comments
        = List.countP (reply_base db u) db.comments := h
      _ = List.countP (fun c => reply_base db u c && time_ok none c.created_at)
          db.comments := by
          apply List.countP_congr
          intro c _
          simp [time_ok]
  · unfold cnt_favorites_on_my_posts
    rw [sum_map_filter]
    refine congrArg List.sum (congrArg (fun g => List.map g db.favorites)
      (funext fun f => ?_))
    by_cases hd : t < f.created_at <;> simp [time_ok, hd]

def exampleNotifyDb : NotifyDb :=
  { posts := [{ id := 1, author := "alice" }],
    comments := [{ id := 10, post_id := 1, author := "bob", parent_id := none,
                   created_at := 5 }],
    favorites := [],
    users := [{ id := 2, username := "bob" }] }

def selfComment : CommentRow :=
  { id := 11, post_id := 1, author := "alice", parent_id := none, created_at := 6 }

/-- Claim C9 (witness): one comment by "bob" on "alice"'s post counts once with no
watermark, does not count with a watermark at its own timestamp (strictly
after), and adding a comment authored by "alice" herself leaves the counter
unchanged. -/
theorem notify_counts_spec_witness :
    selfComment.author = "alice" ∧
    cnt_comments_on_my_posts exampleNotifyDb "alice" none = 1 ∧
    cnt_comments_on_my_posts exampleNotifyDb "alice" (some 5) = 0 ∧
    cnt_comments_on_my_posts
        { exampleNotifyDb with
          comments := exampleNotifyDb.comments ++ [selfComment] } "alice" none
      = cnt_comments_on_my_posts exampleNotifyDb "alice" none :=
  ⟨rfl, by decide, by decide,
    (notify_counts_spec exampleNotifyDb "alice" none 0).1 selfComment rfl⟩

/-! ## Favorite toggle (`toggle_favorite`, views_posts.py) -/

inductive ToggleOutcome where
  | removed
  | added
  | refused
deriving DecidableEq, Repr

/-- Shallow embedding of `toggle_favorite`: `favs` is the favorites table as
`(user_id, post_id)` rows, `posts` maps post id to status.  An existing row is
deleted with no status check; otherwise a non-staff user triggers a status
lookup and is refused (no insertion) unless the post exists with status
"public", while a staff user inserts unconditionally. -/
def toggle_favorite (favs : List (Nat × Nat)) (posts : List (Nat × String))
    (uid pid : Nat) (is_staff : Bool) : List (Nat × Nat) × ToggleOutcome :=
  if (uid, pid) ∈ favs then
    (favs.filter (fun e => e != (uid, pid)), ToggleOutcome.removed)
  else if is_staff = false then
    match posts.find? (fun p => p.1 == pid) with
    | some p =>
      if p.2 = "public" then (favs ++ [(uid, pid)], ToggleOutcome.added)
      else (favs, ToggleOutcome.refused)
    | none => (favs, ToggleOutcome.refused)
  else (favs ++ [(uid, pid)], ToggleOutcome.added)

/-- Claim C10: a non-staff user with no existing favorite row for a post that is
absent or not public is refused and the favorites table is unchanged; a staff
user may favorite any post; and removal of an existing favorite never consults
the posts table (same result for any posts table) and needs no status check
for any user. -/
theorem favorite_toggle_permission
    (favs : List (Nat × Nat)) (posts posts2 : List (Nat × String)) (uid pid : Nat) :
    ((uid, pid) ∉ favs →
      (∀ p, posts.find? (fun q => q.1 == pid) = some p → p.2 ≠ "public") →
      toggle_favorite favs posts uid pid false = (favs, ToggleOutcome.refused)) ∧
    ((uid, pid) ∉ favs →
      toggle_favorite favs posts uid pid true
        = (favs ++ [(uid, pid)], ToggleOutcome.added)) ∧
    ((uid, pid) ∈ favs → ∀ is_staff : Bool,
      toggle_favorite favs posts uid pid is_staff
          = (favs.filter (fun e => e != (uid, pid)), ToggleOutcome.removed) ∧
      toggle_favorite favs posts uid pid is_staff
          = toggle_favorite favs posts2 uid pid is_staff) := by
  refine ⟨?_, ?_, ?_⟩
  · intro hmem hstat
    unfold toggle_favorite
    rw [if_neg hmem]
    cases hf : posts.find? (fun p => p.1 == pid) with
    | none => simp
    | some p => simp [hstat p hf]
  · intro hmem
    unfold toggle_favorite
    rw [if_neg hmem]
    simp
  · intro hmem staff
    unfold toggle_favorite
    rw [if_pos hmem]
    exact ⟨rfl, by rw [if_pos hmem]⟩

/-- Claim C10 (witness): a non-staff user cannot favorite the hidden post 7 (the
table stays empty), a staff user can, and an existing favorite is removed
regardless of the post's status. -/
theorem favorite_toggle_permission_witness :
    ((1, 7) : Nat × Nat) ∉ ([] : List (Nat × Nat)) ∧
    ([((7 : Nat), "hidden")].find? (fun q => q.1 == 7) = some (7, "hidden")) ∧
    toggle_favorite [] [(7, "hidden")] 1 7 false = ([], ToggleOutcome.refused) ∧
    toggle_favorite [] [(7, "hidden")] 1 7 true
      = ([(1, 7)], ToggleOutcome.added) ∧
    ((1, 7) : Nat × Nat) ∈ [((1 : Nat), (7 : Nat))] ∧
    toggle_favorite [(1, 7)] [(7, "hidden")] 1 7 false
      = ([], ToggleOutcome.removed) :=
  ⟨by decide, by decide,
    (favorite_toggle_permission [] [(7, "hidden")] [] 1 7).1 (by decide)
      (by
        intro p hp
        rw [show ([((7 : Nat), "hidden")].find? (fun q => q.1 == 7))
            = some ((7 : Nat), "hidden") from rfl] at hp
        injection hp with h
        subst h
        decide),
    (favorite_toggle_permission [] [(7, "hidden")] [] 1 7).2.1 (by decide),
    by decide,
    by
      have h := ((favorite_toggle_permission [(1, 7)] [(7, "hidden")] [] 1 7).2.2
        (by decide) false).1
      rw [h]
      decide⟩
